import Mathlib

/-!
Shallow embedding of the continual-learning training scheduler
(`train_cl` in `train.py`) and theorems checking the specification's
claims about its replay-curation, iterator, labelling and
regularization logic.

Modelling conventions: tensor entries are rationals; a score tensor is
a list of rows, a row a list of columns; a classifier is a function
from a sample identifier to its score row; in-place mutation is
explicit state passing; nondeterministic shuffling is an explicit
argument carrying the shuffle's outcome.
-/

/-- Ceiling division on naturals, matching `int(np.ceil(a / b))` for `b > 0`. -/
def ceilNat (a b : ℕ) : ℕ := (a + b - 1) / b

/-- Source `train.py` lines 246-252: with a conditional generator in the
task-incremental scenario, replay generation issues one `previous_generator.sample`
request per previous task; the request size is recomputed identically on every
loop pass as `int(np.ceil(batch_size_replay / (task - 1)))`. -/
def replayRequestSizes (batch_size_replay task : ℕ) : List ℕ :=
  (List.range (task - 1)).map (fun _ => ceilNat batch_size_replay (task - 1))

theorem sum_map_const {α : Type} (l : List α) (c : ℕ) :
    (l.map (fun _ => c)).sum = l.length * c := by
  induction l with
  | nil => simp
  | cons a t ih => simp [ih, Nat.succ_mul, Nat.add_comm]

/-- Counterexample to C4 as stated: the claim that the request sizes sum to `batch_size_replay`
fails at `batch_size_replay = 32`, `task = 4`: three requests of 11 samples
each are issued, 33 in total. -/
theorem task_conditioned_total_not_replay_size :
    (replayRequestSizes 32 4).sum = 33 ∧ ¬ (replayRequestSizes 32 4).sum = 32 := by
  decide

/-- Amended C4: every one of the `task - 1` generation requests has the same
size `⌈batch_size_replay / (task-1)⌉`; the total generated count is
`(task-1) * ⌈batch_size_replay / (task-1)⌉`, which is at least
`batch_size_replay` but can exceed it (no remainder absorption). -/
theorem task_conditioned_request_sizes (bsr task : ℕ) (h : 2 ≤ task) :
    (∀ s ∈ replayRequestSizes bsr task, s = ceilNat bsr (task - 1)) ∧
    (replayRequestSizes bsr task).length = task - 1 ∧
    (replayRequestSizes bsr task).sum = (task - 1) * ceilNat bsr (task - 1) ∧
    bsr ≤ (replayRequestSizes bsr task).sum := by
  refine ⟨?_, ?_, ?_, ?_⟩
  · intro s hs
    rcases List.mem_map.1 hs with ⟨j, _, rfl⟩
    rfl
  · simp [replayRequestSizes]
  · simp [replayRequestSizes, sum_map_const, Nat.mul_comm]
  · have hm : 0 < task - 1 := by omega
    have hsum : (replayRequestSizes bsr task).sum = (task - 1) * ceilNat bsr (task - 1) := by
      simp [replayRequestSizes, sum_map_const, Nat.mul_comm]
    rw [hsum]
    unfold ceilNat
    have h1 := Nat.div_add_mod (bsr + (task - 1) - 1) (task - 1)
    have h2 := Nat.mod_lt (bsr + (task - 1) - 1) hm
    set A := (task - 1) * ((bsr + (task - 1) - 1) / (task - 1)) with hA
    set B := (bsr + (task - 1) - 1) % (task - 1) with hB
    clear_value A B
    omega

theorem task_conditioned_request_sizes_witness :
    2 ≤ 4 ∧ 32 ≤ (replayRequestSizes 32 4).sum :=
  ⟨by decide, (task_conditioned_request_sizes 32 4 (by decide)).2.2.2⟩

/-- Source lines 390-392 (`interfered` branch): the comparison tensor is
`torch.zeros_like(scores_new)` whose first `scores_old.size(1)` columns are
overwritten with `scores_old`. -/
def paddedScores (scores_old scores_new : List (List ℚ)) : List (List ℚ) :=
  List.zipWith
    (fun ro rn => (List.range rn.length).map (fun j => if j < ro.length then ro.getD j 0 else 0))
    scores_old scores_new

/-- C6: for rectangular `scores_old` (width `wOld`) and `scores_new`
(width `wNew`) with the same number of rows and `wOld ≤ wNew`, the padded
tensor has the shape of `scores_new`, agrees with `scores_old` on
columns `< wOld`, and is zero on all later columns. -/
theorem kl_padding_shape_and_values (sOld sNew : List (List ℚ)) (wOld wNew : ℕ)
    (hrows : sOld.length = sNew.length)
    (hwO : ∀ r ∈ sOld, r.length = wOld)
    (hwN : ∀ r ∈ sNew, r.length = wNew)
    (hle : wOld ≤ wNew) :
    (paddedScores sOld sNew).length = sNew.length ∧
    (∀ a, a < sNew.length → ((paddedScores sOld sNew).getD a []).length = wNew) ∧
    (∀ a j, a < sNew.length →
      ((paddedScores sOld sNew).getD a []).getD j 0 =
        if j < wOld then (sOld.getD a []).getD j 0 else 0) := by
  have hlen : (paddedScores sOld sNew).length = sNew.length := by
    simp [paddedScores, hrows]
  have hrow : ∀ a, a < sNew.length →
      (paddedScores sOld sNew).getD a [] =
        (List.range ((sNew.getD a []).length)).map
          (fun j => if j < (sOld.getD a []).length then (sOld.getD a []).getD j 0 else 0) := by
    intro a ha
    have haO : a < sOld.length := by omega
    have haP : a < (paddedScores sOld sNew).length := by omega
    rw [List.getD_eq_getElem _ _ haP, List.getD_eq_getElem _ _ (by omega : a < sOld.length),
      List.getD_eq_getElem _ _ ha]
    simp [paddedScores]
  refine ⟨hlen, ?_, ?_⟩
  · intro a ha
    have hmem : sNew.getD a [] ∈ sNew := by
      rw [List.getD_eq_getElem _ _ ha]
      exact List.getElem_mem ha
    rw [hrow a ha, List.length_map, List.length_range, hwN _ hmem]
  · intro a j ha
    have hmemN : sNew.getD a [] ∈ sNew := by
      rw [List.getD_eq_getElem _ _ ha]
      exact List.getElem_mem ha
    have hmemO : sOld.getD a [] ∈ sOld := by
      have haO : a < sOld.length := by omega
      rw [List.getD_eq_getElem _ _ haO]
      exact List.getElem_mem haO
    have hWn : (sNew.getD a []).length = wNew := hwN _ hmemN
    have hWo : (sOld.getD a []).length = wOld := hwO _ hmemO
    rw [hrow a ha, hWn]
    by_cases hj : j < wNew
    · have hjlen : j < ((List.range wNew).map
          (fun j => if j < (sOld.getD a []).length then (sOld.getD a []).getD j 0 else 0)).length := by
        rw [List.length_map, List.length_range]; exact hj
      rw [List.getD_eq_getElem _ _ hjlen]
      simp only [List.getElem_map, List.getElem_range]
      rw [hWo]
    · have h1 : ((List.range wNew).map
          (fun j => if j < (sOld.getD a []).length then (sOld.getD a []).getD j 0 else 0)).length ≤ j := by
        rw [List.length_map, List.length_range]; omega
      rw [List.getD_eq_default _ _ h1]
      rw [if_neg (by omega)]

theorem kl_padding_witness :
    ([[1, 2, 3, 4], [5, 6, 7, 8]] : List (List ℚ)).length =
        ([[9, 9, 9, 9, 9, 9], [9, 9, 9, 9, 9, 9]] : List (List ℚ)).length ∧
    ((paddedScores [[1, 2, 3, 4], [5, 6, 7, 8]]
        [[9, 9, 9, 9, 9, 9], [9, 9, 9, 9, 9, 9]]).getD 0 []).getD 5 0 = 0 := by
  refine ⟨by decide, ?_⟩
  have h := kl_padding_shape_and_values [[1, 2, 3, 4], [5, 6, 7, 8]]
    [[9, 9, 9, 9, 9, 9], [9, 9, 9, 9, 9, 9]] 4 6
    (by decide) (by decide) (by decide) (by decide)
  rw [h.2.2 0 5 (by decide)]
  decide

/-- State of one task data-loader (source lines 122-123 and 179-196):
`iters_left` is the scheduler's remaining-batch counter, `loader` the number
of batches the underlying iterator can still yield. -/
structure IterState where
  iters_left : ℕ
  loader : ℕ
deriving DecidableEq

/-- One pass of the per-iteration loader logic (lines 182-186 for the single
active task; lines 187-196 run the same update per previous task): decrement
the counter; when it hits zero rebuild the iterator (with `drop_last`, a
fresh iterator holds `loaderLen = len(dataset) // batch_size` batches) and
reset the counter to its length; then fetch one batch.  Fetching from an
empty iterator is the error case and yields `none`. -/
def iterStep (loaderLen : ℕ) (s : IterState) : Option IterState :=
  let il := s.iters_left - 1
  if il = 0 then
    if loaderLen = 0 then none else some ⟨loaderLen, loaderLen - 1⟩
  else
    if s.loader = 0 then none else some ⟨il, s.loader - 1⟩

/-- Closed form of the loader state after `k` iterations (initial counter 1,
line 123). -/
def iterStateAt (loaderLen : ℕ) : ℕ → IterState
  | 0 => ⟨1, 0⟩
  | k + 1 => ⟨loaderLen - k % loaderLen, loaderLen - k % loaderLen - 1⟩

def iterRun (loaderLen : ℕ) : ℕ → Option IterState
  | 0 => some (iterStateAt loaderLen 0)
  | k + 1 => (iterRun loaderLen k).bind (iterStep loaderLen)

theorem iterStep_at (loaderLen k : ℕ) (h : 1 ≤ loaderLen) :
    iterStep loaderLen (iterStateAt loaderLen k) = some (iterStateAt loaderLen (k + 1)) := by
  cases k with
  | zero =>
    simp [iterStep, iterStateAt, Nat.mod_self, if_neg (by omega : ¬ loaderLen = 0)]
  | succ k =>
    have hr : k % loaderLen < loaderLen := Nat.mod_lt k h
    by_cases hcase : k % loaderLen = loaderLen - 1
    · have hd := Nat.div_add_mod k loaderLen
      have he : k + 1 = loaderLen * (k / loaderLen + 1) := by
        rw [Nat.mul_succ]
        set A := loaderLen * (k / loaderLen) with hA
        clear_value A
        omega
      have hm0 : (k + 1) % loaderLen = 0 := by
        rw [he, Nat.mul_mod_right]
      simp only [iterStateAt, iterStep]
      rw [if_pos (by omega), if_neg (by omega : ¬ loaderLen = 0), hm0]
      simp
    · have hd := Nat.div_add_mod k loaderLen
      have he : k + 1 = loaderLen * (k / loaderLen) + (k % loaderLen + 1) := by omega
      have hm1 : (k + 1) % loaderLen = k % loaderLen + 1 := by
        rw [he, Nat.mul_add_mod]
        exact Nat.mod_eq_of_lt (by omega)
      simp only [iterStateAt, iterStep]
      rw [if_neg (show ¬ (loaderLen - k % loaderLen - 1 = 0) by omega),
        if_neg (show ¬ (loaderLen - k % loaderLen - 1 = 0) by omega), hm1]
      congr 2

theorem iterRun_eq (loaderLen : ℕ) (h : 1 ≤ loaderLen) :
    ∀ k, iterRun loaderLen k = some (iterStateAt loaderLen k) := by
  intro k
  induction k with
  | zero => rfl
  | succ k ih =>
    rw [iterRun, ih]
    exact iterStep_at loaderLen k h

def seqOption {α : Type} : List (Option α) → Option (List α)
  | [] => some []
  | none :: _ => none
  | some a :: rest => (seqOption rest).map (a :: ·)

/-- Offline task-incremental mode (lines 187-196): one loader per task seen
so far, all stepped on every iteration. -/
def offlineStep (lens : List ℕ) (ss : List IterState) : Option (List IterState) :=
  seqOption (List.zipWith iterStep lens ss)

def offlineRun (lens : List ℕ) : ℕ → Option (List IterState)
  | 0 => some (lens.map (fun _ => ⟨1, 0⟩))
  | k + 1 => (offlineRun lens k).bind (offlineStep lens)

theorem offlineStep_at (k : ℕ) :
    ∀ lens : List ℕ, (∀ n ∈ lens, 1 ≤ n) →
      seqOption (List.zipWith iterStep lens (lens.map (fun n => iterStateAt n k))) =
        some (lens.map (fun n => iterStateAt n (k + 1))) := by
  intro lens
  induction lens with
  | nil => intro _; rfl
  | cons n t ih =>
    intro h
    have hn : 1 ≤ n := h n (List.mem_cons_self n t)
    have ht : ∀ m ∈ t, 1 ≤ m := fun m hm => h m (List.mem_cons_of_mem n hm)
    simp only [List.map_cons, List.zipWith_cons_cons, iterStep_at n k hn, seqOption, ih ht]
    rfl

theorem offlineRun_eq (lens : List ℕ) (h : ∀ n ∈ lens, 1 ≤ n) :
    ∀ k, offlineRun lens k = some (lens.map (fun n => iterStateAt n k)) := by
  intro k
  induction k with
  | zero => rfl
  | succ k ih =>
    rw [offlineRun, ih]
    exact offlineStep_at k lens h

/-- C5: with at least one full batch per dataset the loader machinery never
fails on exhaustion: every iteration yields a batch; whenever exactly a
multiple of `loaderLen = len(dataset) // batch_size` batches have been
consumed, the next call rebuilds the iterator and resets the counter to the
new iterator's length; and in the offline per-task mode every per-task
loader enjoys the same property. -/
theorem task_iterator_rebuild_on_exhaustion (loaderLen : ℕ) (h : 1 ≤ loaderLen) :
    (∀ k, (iterRun loaderLen k).isSome = true) ∧
    (∀ k, k % loaderLen = 0 → iterRun loaderLen (k + 1) = some ⟨loaderLen, loaderLen - 1⟩) ∧
    (∀ lens : List ℕ, (∀ n ∈ lens, 1 ≤ n) → ∀ k, (offlineRun lens k).isSome = true) := by
  refine ⟨?_, ?_, ?_⟩
  · intro k
    rw [iterRun_eq loaderLen h k]
    rfl
  · intro k hk
    rw [iterRun_eq loaderLen h (k + 1)]
    simp [iterStateAt, hk]
  · intro lens hlens k
    rw [offlineRun_eq lens hlens k]
    rfl

theorem task_iterator_rebuild_witness :
    1 ≤ 3 ∧ iterRun 3 4 = some ⟨3, 2⟩ ∧ (offlineRun [2, 3] 5).isSome = true :=
  ⟨by decide,
   (task_iterator_rebuild_on_exhaustion 3 (by decide)).2.1 3 (by decide),
   (task_iterator_rebuild_on_exhaustion 3 (by decide)).2.2 [2, 3] (by decide) 5⟩

/-- Per-parameter state of the synaptic-intelligence tracker: the running
importance estimate `W[n]` and the stored parameter value `p_old[n]`. -/
structure SIEntry where
  W : ℚ
  p_old : ℚ
deriving DecidableEq

/-- Task start (lines 126-133): `W[n] = p.data.clone().zero_()` and
`p_old[n] = p.data.clone()`, `p` being the parameter's current value. -/
def siTaskStart (p : ℚ) : SIEntry := ⟨0, p⟩

/-- Post-step update (lines 499-521): when the parameter received a gradient,
`W[n].add_(-p.grad * (p.detach() - p_old[n]))`; in every case
`p_old[n] = p.detach().clone()` afterwards. -/
def siUpdate (s : SIEntry) (grad : Option ℚ) (p : ℚ) : SIEntry :=
  ⟨s.W + (match grad with
    | some g => -g * (p - s.p_old)
    | none => 0), p⟩

def siRunTask (s : SIEntry) (steps : List (Option ℚ × ℚ)) : SIEntry :=
  steps.foldl (fun t gp => siUpdate t gp.1 gp.2) s

/-- Processing of one further task: re-zero `W`, re-snapshot `p_old` from the
current parameter value, then run the task's training steps. -/
def siNextTask (s : SIEntry) (steps : List (Option ℚ × ℚ)) : SIEntry :=
  siRunTask (siTaskStart s.p_old) steps

/-- C7: the tracker state after a task is independent of the accumulator
value `W` left by the previous task (it is re-zeroed at task start), each
gradient-carrying step adds `-grad * (p - p_old)` to `W`, and `p_old` is
refreshed to the post-step parameter value on every step, gradient or not. -/
theorem si_accumulator_reset_and_update :
    (∀ (s₁ s₂ : SIEntry) (steps : List (Option ℚ × ℚ)), s₁.p_old = s₂.p_old →
      siNextTask s₁ steps = siNextTask s₂ steps) ∧
    (∀ (s : SIEntry) (steps : List (Option ℚ × ℚ)),
      siNextTask s steps = siRunTask ⟨0, s.p_old⟩ steps) ∧
    (∀ (s : SIEntry) (g p : ℚ), siUpdate s (some g) p = ⟨s.W + -g * (p - s.p_old), p⟩) ∧
    (∀ (s : SIEntry) (p : ℚ), siUpdate s none p = ⟨s.W, p⟩) := by
  refine ⟨?_, ?_, ?_, ?_⟩
  · intro s₁ s₂ steps hp
    simp [siNextTask, siTaskStart, hp]
  · intro s steps
    rfl
  · intro s g p
    rfl
  · intro s p
    simp [siUpdate]

theorem si_accumulator_reset_witness :
    (⟨5, 2⟩ : SIEntry).p_old = (⟨0, 2⟩ : SIEntry).p_old ∧
    siNextTask ⟨5, 2⟩ [(some 1, 3)] = siNextTask ⟨0, 2⟩ [(some 1, 3)] :=
  ⟨by decide, si_accumulator_reset_and_update.1 ⟨5, 2⟩ ⟨0, 2⟩ [(some 1, 3)] (by decide)⟩

/-- Sample methods that reach the curation pool-selection code
(lines 290-434); `random`, `uniform` and `softmax` return early and never
reach it. -/
inductive SampleMethod
  | curated
  | curated_softmax
  | curated_variety
  | curated_classVariety
  | interfered
  | misclassified
  | uniform_large
  | random_large
deriving DecidableEq

/-- Descending insertion of a candidate index into an index list already
sorted by metric value. -/
def insertDesc (metric : List ℚ) (i : ℕ) : List ℕ → List ℕ
  | [] => [i]
  | j :: rest =>
    if metric.getD j 0 < metric.getD i 0 then i :: j :: rest
    else j :: insertDesc metric i rest

def insertionSortDesc (metric : List ℚ) : List ℕ → List ℕ
  | [] => []
  | i :: rest => insertDesc metric i (insertionSortDesc metric rest)

/-- Line 409: `_, indices = torch.sort(metric, descending=True)`. -/
def sortIndicesDesc (metric : List ℚ) : List ℕ :=
  insertionSortDesc metric (List.range metric.length)

/-- Lines 411-415: for `uniform_large` and `random_large` the sorted indices
are randomly shuffled; the shuffle's outcome is the `shuffled` argument. -/
def rankedIndices (method : SampleMethod) (metric : List ℚ) (shuffled : List ℕ) : List ℕ :=
  if method = SampleMethod.uniform_large ∨ method = SampleMethod.random_large
  then shuffled else sortIndicesDesc metric

/-- Line 420: `uniform_dist = torch.arange(batch_size_replay) % len(allowed_classes)`. -/
def uniformDist (batch_size_replay numClasses : ℕ) : List ℕ :=
  (List.range batch_size_replay).map (· % numClasses)

/-- Line 421: the per-class quota; equals the entry of
`torch.unique(uniform_dist, return_counts=True)[1]` for class `i` whenever
every class occurs in `uniform_dist` (which requires
`numClasses ≤ batch_size_replay`). -/
def countsEachClass (batch_size_replay numClasses i : ℕ) : ℕ :=
  (uniformDist batch_size_replay numClasses).count i

/-- Lines 417-434: for every method except `random_large` and
`curated_softmax`, per class `i` the top `counts_each_class[i]` ranked
candidates with generator label `i` are concatenated
(`indices[y_used[indices]==i][:counts_each_class[i]]`); otherwise the whole
reordered pool is kept (`x_ = x_[indices]`). -/
def indicesToReplay (method : SampleMethod) (metric : List ℚ) (shuffled : List ℕ)
    (y_used : ℕ → ℕ) (batch_size_replay numClasses : ℕ) : List ℕ :=
  let indices := rankedIndices method metric shuffled
  if ¬ method = SampleMethod.random_large ∧ ¬ method = SampleMethod.curated_softmax then
    ((List.range numClasses).map (fun i =>
      (indices.filter (fun idx => y_used idx == i)).take
        (countsEachClass batch_size_replay numClasses i))).flatten
  else indices

/-- Indexing the generated pool with the selected indices (`x_[indices_to_replay]`
resp. `x_[indices]`, lines 431 and 434); pool elements are sample identifiers. -/
def selectReplay (pool : List ℕ) (idxs : List ℕ) : List ℕ :=
  idxs.map (fun i => pool.getD i 0)

theorem count_uniformDist_qr (m i : ℕ) (hi : i < m) :
    ∀ q r, r ≤ m →
      (uniformDist (m * q + r) m).count i = q + (if i < r then 1 else 0) := by
  intro q
  induction q with
  | zero =>
    intro r
    induction r with
    | zero => intro _; simp [uniformDist]
    | succ r ihr =>
      intro hr
      have hr' : r ≤ m := by omega
      have harg : m * 0 + (r + 1) = (m * 0 + r) + 1 := by ring
      have hsplit : uniformDist (m * 0 + (r + 1)) m =
          uniformDist (m * 0 + r) m ++ [(m * 0 + r) % m] := by
        rw [harg]
        simp [uniformDist, List.range_succ]
      rw [hsplit, List.count_append, ihr hr']
      have hrm : (m * 0 + r) % m = r := by
        have hz : m * 0 + r = r := by ring
        rw [hz]
        exact Nat.mod_eq_of_lt (by omega)
      rw [hrm]
      simp only [List.count_cons, List.count_nil, beq_iff_eq]
      split_ifs <;> omega
  | succ q ihq =>
    intro r
    induction r with
    | zero =>
      have hstep : m * (q + 1) + 0 = m * q + m := by ring
      rw [hstep, ihq m (le_refl m)]
      simp [hi]
    | succ r ihr =>
      intro hr
      have hr' : r ≤ m := by omega
      have harg : m * (q + 1) + (r + 1) = (m * (q + 1) + r) + 1 := by ring
      have hsplit : uniformDist (m * (q + 1) + (r + 1)) m =
          uniformDist (m * (q + 1) + r) m ++ [(m * (q + 1) + r) % m] := by
        rw [harg]
        simp [uniformDist, List.range_succ]
      rw [hsplit, List.count_append, ihr hr']
      have hrm : (m * (q + 1) + r) % m = r := by
        rw [Nat.mul_add_mod]
        exact Nat.mod_eq_of_lt (by omega)
      rw [hrm]
      simp only [List.count_cons, List.count_nil, beq_iff_eq]
      split_ifs <;> omega

theorem countsEachClass_closed (n m i : ℕ) (hm : 0 < m) (hi : i < m) :
    countsEachClass n m i = n / m + (if i < n % m then 1 else 0) := by
  have h := count_uniformDist_qr m i hi (n / m) (n % m)
    (le_of_lt (Nat.mod_lt n hm))
  rw [Nat.div_add_mod n m] at h
  simpa [countsEachClass] using h

theorem countsEachClass_within_one (n m i : ℕ) (hm : 0 < m) (hi : i < m) :
    |((countsEachClass n m i : ℚ)) - (n : ℚ) / (m : ℚ)| ≤ 1 := by
  have hcf := countsEachClass_closed n m i hm hi
  have hdm := Nat.div_add_mod n m
  have hmQ : (0 : ℚ) < (m : ℚ) := by exact_mod_cast hm
  have hne : (m : ℚ) ≠ 0 := ne_of_gt hmQ
  have hcast : (n : ℚ) = (m : ℚ) * ((n / m : ℕ) : ℚ) + ((n % m : ℕ) : ℚ) := by
    exact_mod_cast hdm.symm
  have hdiv : (n : ℚ) / (m : ℚ) = ((n / m : ℕ) : ℚ) + ((n % m : ℕ) : ℚ) / (m : ℚ) := by
    rw [hcast]
    field_simp
    ring
  have hr0 : (0 : ℚ) ≤ ((n % m : ℕ) : ℚ) / (m : ℚ) :=
    div_nonneg (by positivity) (le_of_lt hmQ)
  have hr1 : ((n % m : ℕ) : ℚ) / (m : ℚ) < 1 := by
    rw [div_lt_one hmQ]
    exact_mod_cast Nat.mod_lt n hm
  rw [hcf, hdiv]
  by_cases hcase : i < n % m
  · rw [if_pos hcase]
    push_cast
    rw [abs_le]
    constructor <;> linarith
  · rw [if_neg hcase]
    push_cast
    rw [abs_le]
    constructor <;> linarith

theorem flatten_map_eq_of_single {α : Type} (g : ℕ → List α) :
    ∀ (n i : ℕ), i < n → (∀ j, j < n → j ≠ i → g j = []) →
      ((List.range n).map g).flatten = g i := by
  intro n
  induction n with
  | zero => intro i hi _; exact absurd hi (Nat.not_lt_zero i)
  | succ n ih =>
    intro i hi hz
    rw [List.range_succ, List.map_append, List.flatten_append]
    simp only [List.map_cons, List.map_nil, List.flatten_cons, List.flatten_nil, List.append_nil]
    by_cases hc : i = n
    · subst hc
      have hall : ∀ l ∈ (List.range i).map g, l = [] := by
        intro l hl
        rcases List.mem_map.1 hl with ⟨j, hj, rfl⟩
        have hjr := List.mem_range.1 hj
        exact hz j (by omega) (by omega)
      rw [List.flatten_eq_nil_iff.mpr hall, List.nil_append]
    · have hgn : g n = [] := hz n (Nat.lt_succ_self n) (fun h => hc h.symm)
      rw [hgn, List.append_nil]
      exact ih i (by omega) (fun j hj hji => hz j (by omega) hji)

/-- Counterexample to C2 as stated: line 417 exempts `curated_softmax`
(together with `random_large`) from class balancing, while `uniform_large`
does go through the class-balanced branch.  Concretely, with a pool of four
candidates labelled `0,0,0,1`, `replay_size = 2` and two allowed classes,
`curated_softmax` returns three candidates of class `0` — not within ±1 of
`replay_size / num_allowed_classes = 1`. -/
theorem curated_softmax_not_class_balanced :
    ((indicesToReplay SampleMethod.curated_softmax [4, 3, 2, 1] []
        (fun n => if n < 3 then 0 else 1) 2 2).filter
        (fun idx => (if idx < 3 then 0 else 1) == 0)).length = 3 ∧
    ¬ (|((3 : ℕ) : ℚ) - (2 : ℚ) / (2 : ℚ)| ≤ 1) := by
  constructor
  · decide
  · intro hcon
    rw [show ((3 : ℕ) : ℚ) - (2 : ℚ) / (2 : ℚ) = 2 by norm_num,
      abs_of_nonneg (by norm_num : (0 : ℚ) ≤ 2)] at hcon
    norm_num at hcon

/-- Amended C2: for every curation-pool method except `random_large` and
`curated_softmax` (so including `uniform_large`, whose ranking is the
shuffled pool), the replay batch restricted to an allowed class `i` consists
of the first `counts_each_class[i]` ranked candidates of that class, and —
provided the pool holds enough candidates of the class — that count is
within ±1 of `replay_size / num_allowed_classes`.  `random_large` and
`curated_softmax` instead keep the entire reordered pool (shuffled resp.
metric-sorted) without balancing or truncation. -/
theorem balanced_selection_amended (method : SampleMethod) (metric : List ℚ)
    (shuffled : List ℕ) (y_used : ℕ → ℕ) (bsr numClasses i : ℕ)
    (h1 : ¬ method = SampleMethod.random_large)
    (h2 : ¬ method = SampleMethod.curated_softmax)
    (hn : 0 < numClasses) (hrep : numClasses ≤ bsr) (hi : i < numClasses)
    (hsuff : countsEachClass bsr numClasses i ≤
      ((rankedIndices method metric shuffled).filter (fun idx => y_used idx == i)).length) :
    ((indicesToReplay method metric shuffled y_used bsr numClasses).filter
        (fun idx => y_used idx == i)
      = ((rankedIndices method metric shuffled).filter (fun idx => y_used idx == i)).take
          (countsEachClass bsr numClasses i)) ∧
    (|((((indicesToReplay method metric shuffled y_used bsr numClasses).filter
        (fun idx => y_used idx == i)).length : ℚ)) - (bsr : ℚ) / (numClasses : ℚ)| ≤ 1) ∧
    (∀ (metric2 : List ℚ) (shuffled2 : List ℕ) (y2 : ℕ → ℕ) (b2 n2 : ℕ),
      indicesToReplay SampleMethod.random_large metric2 shuffled2 y2 b2 n2 = shuffled2 ∧
      indicesToReplay SampleMethod.curated_softmax metric2 shuffled2 y2 b2 n2 =
        sortIndicesDesc metric2) := by
  have hsel : indicesToReplay method metric shuffled y_used bsr numClasses =
      ((List.range numClasses).map (fun j =>
        ((rankedIndices method metric shuffled).filter (fun idx => y_used idx == j)).take
          (countsEachClass bsr numClasses j))).flatten := by
    simp only [indicesToReplay]
    rw [if_pos ⟨h1, h2⟩]
  have key : (indicesToReplay method metric shuffled y_used bsr numClasses).filter
      (fun idx => y_used idx == i) =
      ((rankedIndices method metric shuffled).filter (fun idx => y_used idx == i)).take
        (countsEachClass bsr numClasses i) := by
    rw [hsel, List.filter_flatten, List.map_map]
    have hz : ∀ j, j < numClasses → j ≠ i →
        (List.filter (fun idx => y_used idx == i) ∘ fun j =>
          ((rankedIndices method metric shuffled).filter (fun idx => y_used idx == j)).take
            (countsEachClass bsr numClasses j)) j = [] := by
      intro j hj hji
      simp only [Function.comp]
      refine List.filter_eq_nil_iff.mpr ?_
      intro a ha
      have ha2 := List.mem_of_mem_take ha
      have ha3 := (List.mem_filter.1 ha2).2
      have ha4 : y_used a = j := by simpa [beq_iff_eq] using ha3
      simp [beq_iff_eq, ha4]
      omega
    rw [flatten_map_eq_of_single _ numClasses i hi hz]
    simp only [Function.comp]
    refine List.filter_eq_self.mpr ?_
    intro a ha
    have ha2 := List.mem_of_mem_take ha
    exact (List.mem_filter.1 ha2).2
  refine ⟨key, ?_, ?_⟩
  · have hlen : ((indicesToReplay method metric shuffled y_used bsr numClasses).filter
        (fun idx => y_used idx == i)).length = countsEachClass bsr numClasses i := by
      rw [key, List.length_take]
      exact Nat.min_eq_left hsuff
    rw [hlen]
    exact countsEachClass_within_one bsr numClasses i hn hi
  · intro metric2 shuffled2 y2 b2 n2
    constructor <;> simp [indicesToReplay, rankedIndices]

theorem balanced_selection_amended_witness :
    ((0 : ℕ) < 2) ∧
    (|((((indicesToReplay SampleMethod.curated [4, 3, 2, 1] [] (fun n => n % 2) 2 2).filter
        (fun idx => idx % 2 == 0)).length : ℚ)) - (2 : ℚ) / (2 : ℚ)| ≤ 1) :=
  ⟨by decide,
   (balanced_selection_amended SampleMethod.curated [4, 3, 2, 1] [] (fun n => n % 2) 2 2 0
     (by decide) (by decide) (by decide) (by decide) (by decide) (by decide)).2.1⟩

/-- C3 fails on the code: for `random_large` (and `curated_softmax`) the
whole reordered pool is handed to training (`x_ = x_[indices]`, line 434),
so with `batch_size_replay = 2` and `curated_multiplier = 2` the replay
batch has 4 elements, not 2. -/
theorem random_large_batch_exceeds_replay_size :
    (selectReplay [10, 11, 12, 13] (indicesToReplay SampleMethod.random_large [4, 3, 2, 1]
        [2, 0, 3, 1] (fun n => if n < 3 then 0 else 1) 2 2)).length = 4 ∧
    ¬ ((selectReplay [10, 11, 12, 13] (indicesToReplay SampleMethod.random_large [4, 3, 2, 1]
        [2, 0, 3, 1] (fun n => if n < 3 then 0 else 1) 2 2)).length = 2) := by
  decide

/-- Scenario selector (`scenario` argument of `train_cl`). -/
inductive ScenarioKind
  | taskIL
  | domainIL
  | classIL
  | allIL
deriving DecidableEq

/-- Replay-target type exposed by the model (`model.replay_targets`). -/
inductive ReplayTargetsKind
  | hard
  | soft
deriving DecidableEq

/-- Index of the first row maximum, as `torch.max(scores_, dim=1)[1]`:
later entries replace the incumbent only when strictly larger. -/
def argmaxRow (r : List ℚ) : ℕ :=
  (List.range r.length).foldl (fun bi j => if r.getD bi 0 < r.getD j 0 then j else bi) 0

/-- Target Labeler, branch of lines 440-448 and 475-477: scenario is
`domain` or `class` and the previous model has no task mask.  A single
forward pass of the frozen previous model scores the replay batch; in the
class-incremental scenario the scores are truncated to the
`classes_per_task * (task-1)` classes seen before the current task; hard
targets are the row argmax; finally lines 476-477 keep only the target kind
the model is configured for. -/
def targetLabeler (classifyPrev : ℕ → List ℚ) (x_ : List ℕ)
    (classes_per_task task : ℕ) (scenario : ScenarioKind) (rt : ReplayTargetsKind) :
    Option (List ℕ) × Option (List (List ℚ)) :=
  let all_scores_ := x_.map classifyPrev
  let scores_ := if scenario = ScenarioKind.classIL then
      all_scores_.map (List.take (classes_per_task * (task - 1))) else all_scores_
  let y_ := scores_.map argmaxRow
  ((if rt = ReplayTargetsKind.hard then some y_ else none),
   (if rt = ReplayTargetsKind.soft then some scores_ else none))

theorem argmax_foldl_ge (r : List ℚ) :
    ∀ (l : List ℕ) (b j : ℕ), (j = b ∨ j ∈ l) →
      r.getD j 0 ≤ r.getD
        (l.foldl (fun bi j2 => if r.getD bi 0 < r.getD j2 0 then j2 else bi) b) 0 := by
  intro l
  induction l with
  | nil =>
    intro b j hj
    rcases hj with rfl | hm
    · exact le_refl _
    · exact absurd hm (List.not_mem_nil j)
  | cons a t ih =>
    intro b j hj
    simp only [List.foldl_cons]
    have hb2 : r.getD b 0 ≤ r.getD (if r.getD b 0 < r.getD a 0 then a else b) 0 ∧
        r.getD a 0 ≤ r.getD (if r.getD b 0 < r.getD a 0 then a else b) 0 := by
      by_cases hc : r.getD b 0 < r.getD a 0
      · rw [if_pos hc]
        exact ⟨le_of_lt hc, le_refl _⟩
      · rw [if_neg hc]
        exact ⟨le_refl _, le_of_not_lt hc⟩
    have hrest := ih (if r.getD b 0 < r.getD a 0 then a else b)
    rcases hj with rfl | hm
    · exact le_trans hb2.1 (hrest _ (Or.inl rfl))
    · rcases List.mem_cons.1 hm with rfl | hmt
      · exact le_trans hb2.2 (hrest _ (Or.inl rfl))
      · exact hrest j (Or.inr hmt)

/-- C8: in the class-incremental scenario without a task mask, the Target
Labeler truncates the previous model's scores to the first
`classes_per_task * (task-1)` columns, hard labels are the row argmax of the
truncated scores (a genuine maximizer), and exactly one of hard labels /
soft scores is retained according to `replay_targets`. -/
theorem target_labeler_truncation_and_retention (classifyPrev : ℕ → List ℚ)
    (x_ : List ℕ) (classes_per_task task : ℕ) :
    (targetLabeler classifyPrev x_ classes_per_task task ScenarioKind.classIL
        ReplayTargetsKind.hard =
      (some (((x_.map classifyPrev).map
        (List.take (classes_per_task * (task - 1)))).map argmaxRow), none)) ∧
    (targetLabeler classifyPrev x_ classes_per_task task ScenarioKind.classIL
        ReplayTargetsKind.soft =
      (none, some ((x_.map classifyPrev).map
        (List.take (classes_per_task * (task - 1)))))) ∧
    (∀ rt : ReplayTargetsKind,
      ¬ ((targetLabeler classifyPrev x_ classes_per_task task
          ScenarioKind.classIL rt).1.isSome =
        (targetLabeler classifyPrev x_ classes_per_task task
          ScenarioKind.classIL rt).2.isSome)) ∧
    (∀ (r : List ℚ) (j : ℕ), j < r.length → r.getD j 0 ≤ r.getD (argmaxRow r) 0) := by
  refine ⟨rfl, rfl, ?_, ?_⟩
  · intro rt
    cases rt <;> simp [targetLabeler]
  · intro r j hj
    exact argmax_foldl_ge r (List.range r.length) 0 j (Or.inr (List.mem_range.mpr hj))

theorem target_labeler_witness :
    (1 : ℕ) < ([(2 : ℚ), 7, 5] : List ℚ).length ∧
    ([(2 : ℚ), 7, 5] : List ℚ).getD 1 0 ≤
      ([(2 : ℚ), 7, 5] : List ℚ).getD (argmaxRow [(2 : ℚ), 7, 5]) 0 :=
  ⟨by decide,
   (target_labeler_truncation_and_retention (fun _ => []) [] 1 1).2.2.2
     [(2 : ℚ), 7, 5] 1 (by decide)⟩

/-- Curation Engine scoring pass of lines 333-340: despite the comment on
line 332 ("Use the previous model to score the generated images"), the pool
`x_` is scored with `model.classify` — the live model being trained — and
the resulting logits are restricted to the first
`classes_per_task * (curTaskID + 1) = classes_per_task * (task - 1)` columns
before the softmax / per-sample cross-entropy against `y_used`.  Both the
live model's and the frozen previous model's classifiers are in scope; the
code reads the former. -/
def curationLossOldScores (model previous_model : ℕ → List ℚ)
    (x_ : List ℕ) (classes_per_task task : ℕ) : List (List ℚ) :=
  (x_.map model).map (List.take (classes_per_task * (task - 1)))

/-- Classifier of a live model that has already been trained on task 2 data. -/
def demoLiveClassify (n : ℕ) : List ℚ := [if n = 0 then 1 else 2, 0, 0, 0]

/-- Classifier of the frozen end-of-task-1 snapshot. -/
def demoFrozenClassify (_ : ℕ) : List ℚ := [0, 0, 0, 0]

/-- C1 fails on the code: the `loss_old` score matrix equals the live
model's truncated output and differs from the frozen previous model's
truncated output whenever the two classifiers disagree on the pool
(here `classes_per_task = 2`, `task = 2`, pool `[0, 1]`). -/
theorem curation_lossOld_scored_by_live_model :
    curationLossOldScores demoLiveClassify demoFrozenClassify [0, 1] 2 2
      = ([0, 1].map demoLiveClassify).map (List.take 2) ∧
    ¬ (curationLossOldScores demoLiveClassify demoFrozenClassify [0, 1] 2 2
      = ([0, 1].map demoFrozenClassify).map (List.take 2)) := by
  constructor
  · rfl
  · decide

/-- Minimal model record: parameter vector plus the train/eval mode flag. -/
structure CLModel where
  params : List ℚ
  training : Bool
deriving DecidableEq

def blankModel : CLModel := ⟨[], true⟩

/-- Heap of model objects; references are list indices.  This keeps the
aliasing structure of the Python objects explicit. -/
def heapGet (h : List CLModel) (r : ℕ) : CLModel := h.getD r blankModel

/-- Model deep copy, `copy.deepcopy(model)` (line 344): allocate a fresh cell holding a copy
of the referenced model, and return its reference. -/
def heapDeepcopy (h : List CLModel) (r : ℕ) : List CLModel × ℕ :=
  (h ++ [heapGet h r], h.length)

/-- Clone training, `model_tmp.train_a_batch(...)` (lines 346-350): an arbitrary in-place
update `f` applied to the referenced cell. -/
def heapTrainABatch (f : CLModel → CLModel) (h : List CLModel) (r : ℕ) : List CLModel :=
  h.set r (f (heapGet h r))

/-- One curation scoring step (lines 333-358): score the pool with the model
at `modelRef` (no_grad), deep-copy that model, run one training step on the
copy only, re-score the pool with the trained copy; the result carries both
score lists, the final heap and the untouched reference to the real model. -/
def curationCloneStep (classify : CLModel → ℕ → ℚ) (f : CLModel → CLModel)
    (h : List CLModel) (modelRef : ℕ) (pool : List ℕ) :
    (List ℚ × List ℚ) × List CLModel × ℕ :=
  let scores_before := pool.map (classify (heapGet h modelRef))
  let copied := heapDeepcopy h modelRef
  let h2 := heapTrainABatch f copied.1 copied.2
  let scores_after := pool.map (classify (heapGet h2 copied.2))
  ((scores_before, scores_after), h2, modelRef)

theorem getD_set_ne {α : Type} :
    ∀ (l : List α) (i j : ℕ) (a d : α), ¬ i = j → (l.set i a).getD j d = l.getD j d := by
  intro l
  induction l with
  | nil => intro i j a d _; cases i <;> rfl
  | cons x xs ih =>
    intro i j a d hij
    cases i with
    | zero =>
      cases j with
      | zero => exact absurd rfl hij
      | succ j' => rfl
    | succ i' =>
      cases j with
      | zero => rfl
      | succ j' =>
        have : ((x :: xs).set (i' + 1) a).getD (j' + 1) d = (xs.set i' a).getD j' d := rfl
        rw [this]
        exact ih i' j' a d (fun hc => hij (by omega))

theorem getD_append_left {α : Type} :
    ∀ (l l2 : List α) (j : ℕ) (d : α), j < l.length → (l ++ l2).getD j d = l.getD j d := by
  intro l
  induction l with
  | nil => intro l2 j d hj; exact absurd hj (by simp)
  | cons x xs ih =>
    intro l2 j d hj
    cases j with
    | zero => rfl
    | succ j' => exact ih l2 j' d (by simpa using hj)

/-- C9: the disposable clone is strictly local to the curation step — after
scoring, the real model's cell is bit-identical to what it was before the
clone was created and trained, and the step still refers to the same real
model. -/
theorem curation_clone_frame_property (classify : CLModel → ℕ → ℚ)
    (f : CLModel → CLModel) (h : List CLModel) (modelRef : ℕ) (pool : List ℕ)
    (hr : modelRef < h.length) :
    heapGet (curationCloneStep classify f h modelRef pool).2.1 modelRef = heapGet h modelRef ∧
    (curationCloneStep classify f h modelRef pool).2.2 = modelRef := by
  refine ⟨?_, rfl⟩
  show ((h ++ [heapGet h modelRef]).set h.length
      (f (heapGet (h ++ [heapGet h modelRef]) h.length))).getD modelRef blankModel =
    h.getD modelRef blankModel
  rw [getD_set_ne _ _ _ _ _ (by omega : ¬ h.length = modelRef)]
  exact getD_append_left h _ modelRef blankModel hr

theorem curation_clone_frame_witness :
    (0 : ℕ) < ([⟨[1], true⟩, ⟨[2], true⟩] : List CLModel).length ∧
    heapGet (curationCloneStep (fun m n => m.params.getD 0 0 + (n : ℚ))
        (fun m => ⟨0 :: m.params, m.training⟩)
        [⟨[1], true⟩, ⟨[2], true⟩] 0 [0, 1]).2.1 0 =
      heapGet [⟨[1], true⟩, ⟨[2], true⟩] 0 :=
  ⟨by decide,
   (curation_clone_frame_property (fun m n => m.params.getD 0 0 + (n : ℚ))
     (fun m => ⟨0 :: m.params, m.training⟩)
     [⟨[1], true⟩, ⟨[2], true⟩] 0 [0, 1] (by decide)).1⟩

/-- Replay mode (`replay_mode` argument of `train_cl`). -/
inductive ReplayModeKind
  | noneMode
  | currentMode
  | offlineMode
  | generativeMode
deriving DecidableEq

/-- Evaluation mode, `.eval()`: same parameters, training flag cleared. -/
def evalMode (m : CLModel) : CLModel := ⟨m.params, false⟩

/-- Scheduler state threaded through the task loop: the live model, the
frozen snapshots (`previous_model`, `previous_generator`, both `None`
before the first task ends, lines 101-102) and the replay indicator flags
`Generative` / `Current` (initialized `False`, line 101). -/
structure TaskLoopState where
  model : CLModel
  previous_model : Option CLModel
  previous_generator : Option CLModel
  generativeFlag : Bool
  currentFlag : Bool
deriving DecidableEq

/-- Iteration loop over `batch_index`: `f` is the abstract single-batch update of the live
model (`model.train_a_batch`), applied `k` times. -/
def runIters (f : CLModel → ℕ → CLModel) (m : CLModel) : ℕ → CLModel
  | 0 => m
  | k + 1 => f (runIters f m k) (k + 1)

/-- Lines 159-162: the iteration budget of a task, zeroed by `only_last` on
every non-final task. -/
def itersToUse (only_last : Bool) (task numTasks iters : ℕ) : ℕ :=
  if only_last = true ∧ ¬ task = numTasks then 0 else iters

/-- One full task (lines 179-589 reduced to the state the claim is about):
run the task's iterations, then unconditionally refresh
`previous_model = copy.deepcopy(model).eval()` (line 584) and, for
generative replay, set `Generative = True` and
`previous_generator = previous_model if feedback else copy.deepcopy(generator).eval()`
(lines 585-587); for current replay set `Current = True` (lines 588-589). -/
def taskStep (rm : ReplayModeKind) (feedback only_last : Bool)
    (f : CLModel → ℕ → CLModel) (iters numTasks : ℕ) (gen : CLModel)
    (s : TaskLoopState) (task : ℕ) : TaskLoopState :=
  let m2 := runIters f s.model (itersToUse only_last task numTasks iters)
  let prev := evalMode m2
  ⟨m2, some prev,
    (if rm = ReplayModeKind.generativeMode then
        some (if feedback then prev else evalMode gen) else s.previous_generator),
    (if rm = ReplayModeKind.generativeMode then true else s.generativeFlag),
    (if rm = ReplayModeKind.currentMode then true else s.currentFlag)⟩

/-- Scheduler state after the first `k` tasks have been processed. -/
def loopState (rm : ReplayModeKind) (feedback only_last : Bool)
    (f : CLModel → ℕ → CLModel) (iters numTasks : ℕ) (gen m0 : CLModel) : ℕ → TaskLoopState
  | 0 => ⟨m0, none, none, false, false⟩
  | k + 1 => taskStep rm feedback only_last f iters numTasks gen
      (loopState rm feedback only_last f iters numTasks gen m0 k) (k + 1)

/-- C10: entering task 1 there is no snapshot and both replay flags are off
(task 1 trains with no replay); after every task `k ≥ 1` the snapshot is a
deep copy of the end-of-task model in evaluation mode — also for tasks whose
iteration budget `only_last` zeroed, in which case it snapshots the
never-trained initial model — and under generative replay the flag is set
and a previous generator is stored from task 1 on. -/
theorem task_end_snapshot_refresh (rm : ReplayModeKind) (feedback only_last : Bool)
    (f : CLModel → ℕ → CLModel) (iters numTasks : ℕ) (gen m0 : CLModel) :
    ((loopState rm feedback only_last f iters numTasks gen m0 0).previous_model = none ∧
      (loopState rm feedback only_last f iters numTasks gen m0 0).generativeFlag = false ∧
      (loopState rm feedback only_last f iters numTasks gen m0 0).currentFlag = false) ∧
    (∀ k, 1 ≤ k →
      (loopState rm feedback only_last f iters numTasks gen m0 k).previous_model =
        some (evalMode ((loopState rm feedback only_last f iters numTasks gen m0 k).model))) ∧
    (∀ k, 1 ≤ k → rm = ReplayModeKind.generativeMode →
      (loopState rm feedback only_last f iters numTasks gen m0 k).generativeFlag = true ∧
      ((loopState rm feedback only_last f iters numTasks gen m0 k).previous_generator).isSome
        = true) ∧
    (only_last = true → ∀ k, k < numTasks →
      (loopState rm feedback only_last f iters numTasks gen m0 k).model = m0) ∧
    (only_last = true → ∀ k, 1 ≤ k → k < numTasks →
      (loopState rm feedback only_last f iters numTasks gen m0 k).previous_model =
        some (evalMode m0)) := by
  have hmodel : only_last = true → ∀ k, k < numTasks →
      (loopState rm feedback only_last f iters numTasks gen m0 k).model = m0 := by
    intro hol k
    induction k with
    | zero => intro _; rfl
    | succ k ih =>
      intro hk
      show (taskStep rm feedback only_last f iters numTasks gen
        (loopState rm feedback only_last f iters numTasks gen m0 k) (k + 1)).model = m0
      have hitu : itersToUse only_last (k + 1) numTasks iters = 0 := by
        rw [itersToUse, if_pos ⟨hol, by omega⟩]
      simp only [taskStep, hitu, runIters]
      exact ih (by omega)
  have hsnap : ∀ k, 1 ≤ k →
      (loopState rm feedback only_last f iters numTasks gen m0 k).previous_model =
        some (evalMode ((loopState rm feedback only_last f iters numTasks gen m0 k).model)) := by
    intro k hk
    cases k with
    | zero => omega
    | succ k => rfl
  refine ⟨⟨rfl, rfl, rfl⟩, hsnap, ?_, hmodel, ?_⟩
  · intro k hk hrm
    cases k with
    | zero => omega
    | succ k =>
      subst hrm
      constructor
      · show (taskStep ReplayModeKind.generativeMode feedback only_last f iters numTasks gen
          (loopState ReplayModeKind.generativeMode feedback only_last f iters numTasks gen m0 k)
          (k + 1)).generativeFlag = true
        simp [taskStep]
      · show ((taskStep ReplayModeKind.generativeMode feedback only_last f iters numTasks gen
          (loopState ReplayModeKind.generativeMode feedback only_last f iters numTasks gen m0 k)
          (k + 1)).previous_generator).isSome = true
        simp [taskStep]
  · intro hol k hk hkT
    rw [hsnap k hk, hmodel hol k hkT]

theorem task_end_snapshot_witness :
    (1 : ℕ) ≤ 1 ∧ 1 < 3 ∧ true = true ∧
    (loopState ReplayModeKind.generativeMode false true
        (fun m i => ⟨((m.params.getD 0 0) + 1) :: m.params, m.training⟩) 5 3
        blankModel ⟨[7], true⟩ 1).previous_model = some (evalMode ⟨[7], true⟩) :=
  ⟨by decide, by decide, rfl,
   (task_end_snapshot_refresh ReplayModeKind.generativeMode false true
     (fun m i => ⟨((m.params.getD 0 0) + 1) :: m.params, m.training⟩) 5 3
     blankModel ⟨[7], true⟩).2.2.2.2 rfl 1 (by decide) (by decide)⟩
